import Mathlib

/-!
Verification of the subtitle composition engine of the `cop` repository.

The Python sources under `utils/` are shallowly embedded below:

* `utils/subtitle_renderer.py` — cue windowing (`apply_subtitles`), the
  position policy (`get_subtitle_position`), and the per-cue layer stack
  (`create_subtitle_clip`, `create_background_clip`).
* `utils/audio_handler.py` — duration arithmetic of `adjust_audio_to_video`.
* `utils/arabic_text.py` — text cleaning, wrapping and the shaping pipeline
  (`clean_text`, `normalize_arabic`, `split_long_text`, `process_text`,
  `process_multiline_text`, `format_subtitle_text`).

Times are embedded as rationals, pixel quantities as integers.  The two
external text-shaping libraries (`arabic_reshaper.reshape` and
`bidi.algorithm.get_display`) and the glyph rasteriser are not part of the
repository; they enter the embedding as explicit function parameters (oracles).
-/

namespace Cop

/-- A MoviePy position component: an absolute pixel coordinate or the
symbolic string `'center'`. -/
inductive PosCoord where
  | px (n : ℤ)
  | center
deriving DecidableEq, Repr

/-- The kind of a drawable handed to the compositor: shadow text,
background colour plate, or the glyph text itself. -/
inductive ClipKind where
  | shadow
  | background
  | text
deriving DecidableEq, Repr

/-- One canonical subtitle cue (`parse_*` output: index, start, end, text).
The source field `end` is a Lean keyword and is embedded as `stop`. -/
structure Cue where
  index : ℤ := 1
  start : ℚ
  stop : ℚ
  text : String

/-- The loosely-typed settings dictionary.  Every field is an `Option`:
`none` embeds a missing key, and each reading site applies the same default
as the corresponding Python `settings.get(key, default)` call. -/
structure Settings where
  font_size : Option ℤ := none
  text_color : Option String := none
  bg_color : Option String := none
  stroke_width : Option ℤ := none
  stroke_color : Option String := none
  bg_opacity : Option ℚ := none
  shadow_enabled : Option Bool := none
  shadow_offset_x : Option ℤ := none
  shadow_offset_y : Option ℤ := none
  shadow_blur : Option ℚ := none
  subtitle_offset : Option ℚ := none
  position : Option String := none
  alignment : Option String := none
  margin_horizontal : Option ℤ := none
  margin_vertical : Option ℤ := none
  audio_volume : Option ℚ := none
  audio_offset : Option ℚ := none

/-- A clip value as built inside `create_subtitle_clip` /
`create_background_clip`: timing, opacity and pixel size of one drawable. -/
structure Clip where
  kind : ClipKind
  content : String := ""
  cstart : ℚ
  duration : ℚ
  opacity : ℚ := 1
  size : ℤ × ℤ := (0, 0)

/-- The value returned by `create_subtitle_clip`: the main text clip plus
the attributes the source attaches to it (`shadow_offset`, `has_shadow`,
`shadow_clip`), together with the local list `clips_to_composite` that the
source builds and then abandons (the function returns only `txt_clip`). -/
structure SubClipResult where
  composite : List Clip
  txt : Clip
  shadow_offset : ℤ × ℤ
  has_shadow : Bool
  shadow_clip : Option Clip

/-- A positioned, timed drawable as it is appended to `subtitle_clips` in
`apply_subtitles` and handed to `CompositeVideoClip`. -/
structure Layer where
  kind : ClipKind
  content : String
  lstart : ℚ
  lstop : ℚ
  opacity : ℚ
  pos : PosCoord × PosCoord

/-- Position policy of `get_subtitle_position` (subtitle_renderer.py
lines 394-429): Arabic tokens select top/center vertical and left/right
horizontal anchors; every other value falls to the `else` branches. -/
def get_subtitle_position (settings : Settings) (video_width video_height : ℤ) :
    PosCoord × PosCoord :=
  let position_setting := settings.position.getD "أسفل"
  let alignment := settings.alignment.getD "وسط"
  let margin_horizontal := settings.margin_horizontal.getD 20
  let margin_vertical := settings.margin_vertical.getD 30
  let v_pos : PosCoord :=
    if position_setting = "أعلى" then .px margin_vertical
    else if position_setting = "وسط" then .center
    else .px (video_height - margin_vertical)
  let h_pos : PosCoord :=
    if alignment = "يسار" then .px margin_horizontal
    else if alignment = "يمين" then .px (video_width - margin_horizontal)
    else .center
  (h_pos, v_pos)

/-- Shadow anchor computation of `apply_subtitles` (lines 366-376): each
`isinstance(..., int)` axis is shifted by the shadow offset, a symbolic
`'center'` axis is passed through unchanged. -/
def shadow_position (position : PosCoord × PosCoord) (off : ℤ × ℤ) :
    PosCoord × PosCoord :=
  match position with
  | (.center, .px y) => (.center, .px (y + off.2))
  | (.center, .center) => (.center, .center)
  | (.px x, .center) => (.px (x + off.1), .center)
  | (.px x, .px y) => (.px (x + off.1), .px (y + off.2))

/-- Embedding of `create_background_clip` (lines 255-286): a colour plate
sized to the text clip's bounding box plus 20px of width and 10px of height
padding, with the requested opacity.  The source returns `None` only when
clip construction throws, which the value-level embedding cannot do. -/
def create_background_clip (text_clip : Clip) (bg_color : String) (opacity : ℚ)
    (start_time duration : ℚ) : Option Clip :=
  let w := text_clip.size.1
  let h := text_clip.size.2
  some { kind := .background, content := bg_color, cstart := start_time,
         duration := duration, opacity := opacity, size := (w + 20, h + 10) }

/-- Embedding of `create_subtitle_clip` (lines 160-253).  `arabic` stands for
`arabic_processor.format_subtitle_text` at `max_width=50`; `text_size` is the
rasteriser's bounding box for a rendered string.  The local list
`clips_to_composite` is recorded in the result (field `composite`) exactly as
the source builds it — shadow first, then background, then text — even though
the source then returns only `txt_clip`, leaving the list unused. -/
def create_subtitle_clip (arabic : String → String) (text_size : String → ℤ × ℤ)
    (text : String) (start_time end_time : ℚ) (settings : Settings) : SubClipResult :=
  let processed_text := arabic text
  let bg_color := settings.bg_color.getD "#000000"
  let bg_opacity := settings.bg_opacity.getD 0.7
  let shadow_enabled := settings.shadow_enabled.getD false
  let shadow_offset_x := settings.shadow_offset_x.getD 2
  let shadow_offset_y := settings.shadow_offset_y.getD 2
  let shadow_blur := settings.shadow_blur.getD 3
  let duration := end_time - start_time
  let txt_clip : Clip :=
    { kind := .text, content := processed_text, cstart := start_time,
      duration := duration, opacity := 1, size := text_size processed_text }
  let shadow_clip_ref : Option Clip :=
    if shadow_enabled ∧ (shadow_offset_x ≠ 0 ∨ shadow_offset_y ≠ 0) then
      some { kind := .shadow, content := processed_text, cstart := start_time,
             duration := duration,
             opacity := if shadow_blur > 0 then max 0.3 (1 - shadow_blur / 20) else 1,
             size := text_size processed_text }
    else none
  let clips₁ : List Clip := match shadow_clip_ref with
    | some sh => [sh]
    | none => []
  let clips₂ : List Clip := clips₁ ++
    (if bg_opacity > 0 then
       match create_background_clip txt_clip bg_color bg_opacity start_time duration with
       | some bg => [bg]
       | none => []
     else [])
  let clips_to_composite := clips₂ ++ [txt_clip]
  { composite := clips_to_composite, txt := txt_clip,
    shadow_offset := if shadow_enabled then (shadow_offset_x, shadow_offset_y) else (0, 0),
    has_shadow := shadow_enabled,
    shadow_clip := shadow_clip_ref }

/-- Timing part of the `apply_subtitles` loop body (lines 330-347): offset
application, start clamp, horizon/duration truncation, and the `continue`
branches, returning `none` when the cue is skipped. -/
def window_cue (subtitle_offset : ℚ) (preview_active : Bool) (preview_end : ℚ)
    (video_duration : ℚ) (sub : Cue) : Option (ℚ × ℚ) :=
  let start_time := max 0 (sub.start + subtitle_offset)
  let end_time := sub.stop + subtitle_offset
  if preview_active then
    if start_time ≥ preview_end then none
    else
      let end_time := if end_time > preview_end then preview_end else end_time
      if end_time ≤ start_time then none else some (start_time, end_time)
  else
    if start_time ≥ video_duration then none
    else
      let end_time := if end_time > video_duration then video_duration else end_time
      if end_time ≤ start_time then none else some (start_time, end_time)

/-- Layer-emission part of the `apply_subtitles` loop body (lines 350-381):
build the subtitle clip, position it, and append the shadow clip (when
present) before the text clip. -/
def cue_layers (arabic : String → String) (text_size : String → ℤ × ℤ)
    (settings : Settings) (video_width video_height : ℤ)
    (text : String) (start_time end_time : ℚ) : List Layer :=
  let sc := create_subtitle_clip arabic text_size text start_time end_time settings
  let position := get_subtitle_position settings video_width video_height
  let txt_layer : Layer :=
    { kind := sc.txt.kind, content := sc.txt.content, lstart := sc.txt.cstart,
      lstop := sc.txt.cstart + sc.txt.duration, opacity := sc.txt.opacity,
      pos := position }
  let shadow_layers : List Layer :=
    if sc.has_shadow then
      match sc.shadow_clip with
      | some sh =>
          let shadow_pos := shadow_position position sc.shadow_offset
          [{ kind := sh.kind, content := sh.content, lstart := sh.cstart,
             lstop := sh.cstart + sh.duration, opacity := sh.opacity,
             pos := shadow_pos }]
      | none => []
    else []
  shadow_layers ++ [txt_layer]

/-- Embedding of `apply_subtitles` (lines 301-392) as the list of positioned
subtitle layers handed to `CompositeVideoClip` (the base video clip itself is
omitted).  `preview_end = none` embeds Python `None`; the `preview_only and
preview_end` guard is truthiness, so `some 0` is as inactive as `none`. -/
def apply_subtitles (arabic : String → String) (text_size : String → ℤ × ℤ)
    (video_duration : ℚ) (video_width video_height : ℤ)
    (subtitles_data : List Cue) (settings : Settings)
    (preview_only : Bool) (preview_end : Option ℚ) : List Layer :=
  let preview_active := preview_only &&
    (match preview_end with
     | some q => decide (q ≠ 0)
     | none => false)
  let pe := preview_end.getD 0
  let filtered_subs :=
    if preview_active then subtitles_data.filter (fun sub => decide (sub.start < pe))
    else subtitles_data
  let subtitle_offset := settings.subtitle_offset.getD 0
  (filtered_subs.filterMap (fun sub =>
     (window_cue subtitle_offset preview_active pe video_duration sub).map
       (fun p => cue_layers arabic text_size settings video_width video_height
                   sub.text p.1 p.2))).flatten

/-- Duration of `process_audio` output (audio_handler.py lines 51-78): the
volume multiplier (`volumex`) and start shift (`set_start`) leave the clip's
duration unchanged. -/
def process_audio_duration (_settings : Settings) (d : ℚ) : ℚ := d

/-- Python `int()` on a rational: truncation toward zero. -/
def py_int (q : ℚ) : ℤ := q.num.tdiv q.den

/-- Duration behaviour of `adjust_audio_to_video` (audio_handler.py lines
100-133), error path included.  Longer audio is cut at the video duration
(`subclip(0, video_duration)`, a real clip method).  For audio shorter by
a ratio above 1.5 the source computes `loops_needed` (line 125) and then
calls `processed_audio.concatenate_audioclips(audio_segments)` (line 127);
`concatenate_audioclips` is a module-level MoviePy function, not a method
of any clip class, so that attribute lookup raises `AttributeError`, which
the `except` at lines 132-133 re-raises as
`Exception("Error adjusting audio: ...")` — the embedding returns that
wrapped error (message abbreviated) for the loop branch. -/
def adjust_audio_to_video (settings : Settings) (d video_duration : ℚ) :
    Except String ℚ :=
  let pd := process_audio_duration settings d
  if pd > video_duration then .ok video_duration
  else if pd < video_duration then
    if video_duration / pd > 1.5 then
      let _loops_needed : ℤ := py_int (video_duration / pd) + 1
      .error "Error adjusting audio: AttributeError"
    else .ok pd
  else .ok pd

/-- Modelled from the spec: the audio-windowing step of §4.4 ("if
materially shorter (ratio > 1.5), loop-concatenate until it covers the
bound, then truncate to the exact bound"), i.e. the duration that
audio_handler.py lines 125-128 intend to produce — `int(B/d) + 1` copies
of the processed clip, cut at the bound.  The concatenation call that
should compute this is the one missing from the code (line 127 raises). -/
def loop_concat_duration (settings : Settings) (d video_duration : ℚ) : ℚ :=
  let pd := process_audio_duration settings d
  let loops_needed : ℤ := py_int (video_duration / pd) + 1
  min (pd * loops_needed) video_duration

/-!
Text processing (`utils/arabic_text.py`).  The regex operations of
`clean_text` / `normalize_arabic` and the Python string primitives
(`str.split()`, `str.strip()`, `len`) are embedded as character-list
functions; the external `arabic_reshaper.reshape` and
`bidi.algorithm.get_display` calls are oracle parameters that may fail
(`Option`), embedding the `try/except` of `process_text`.
-/

/-- Python whitespace (`\s` for `str` patterns and `str.isspace()`): ASCII
whitespace plus the Unicode whitespace code points. -/
def is_py_space (c : Char) : Bool :=
  c = ' ' || c = '\t' || c = '\n' || c = '\r' ||
  c.toNat = 0xB || c.toNat = 0xC ||
  c.toNat = 0x1C || c.toNat = 0x1D || c.toNat = 0x1E || c.toNat = 0x1F ||
  c.toNat = 0x85 || c.toNat = 0xA0 || c.toNat = 0x1680 ||
  (0x2000 ≤ c.toNat && c.toNat ≤ 0x200A) ||
  c.toNat = 0x2028 || c.toNat = 0x2029 || c.toNat = 0x202F ||
  c.toNat = 0x205F || c.toNat = 0x3000

/-- Scanner for `re.sub(r'<[^>]+>', '', text)` (clean_text, line 50).
State `none` scans normally; state `some buf` is inside a candidate tag
opened by `'<'`, with `buf` holding the (reversed) characters read since.
On `'>'` with a non-empty buffer the candidate matches and is dropped; on
`'>'` with an empty buffer the regex cannot match (it requires at least one
character between the brackets), so `'<'` and `'>'` are kept; at the end of
input an open candidate is flushed verbatim. -/
def strip_tags_aux : List Char → Option (List Char) → List Char
  | [], none => []
  | [], some buf => '<' :: buf.reverse
  | c :: rest, none =>
      if c = '<' then strip_tags_aux rest (some [])
      else c :: strip_tags_aux rest none
  | c :: rest, some buf =>
      if c = '>' then
        if buf = [] then '<' :: '>' :: strip_tags_aux rest none
        else strip_tags_aux rest none
      else strip_tags_aux rest (some (c :: buf))

/-- Removal of markup tags: `re.sub(r'<[^>]+>', '', text)`. -/
def strip_tags (l : List Char) : List Char := strip_tags_aux l none

/-- Whitespace-run collapsing: `re.sub(r'\s+', ' ', text)` (line 53). -/
def collapse_ws : List Char → List Char
  | [] => []
  | [c] => if is_py_space c then [' '] else [c]
  | c₁ :: c₂ :: rest =>
      if is_py_space c₁ && is_py_space c₂ then collapse_ws (c₂ :: rest)
      else (if is_py_space c₁ then ' ' else c₁) :: collapse_ws (c₂ :: rest)

/-- Python `str.strip()`: drop leading and trailing whitespace. -/
def py_strip (l : List Char) : List Char :=
  ((l.dropWhile is_py_space).reverse.dropWhile is_py_space).reverse

/-- Alef normalization `re.sub(r'[آأإٱ]', 'ا', text)` (normalize_arabic,
line 74). -/
def norm_alef (c : Char) : Char :=
  if c = 'آ' ∨ c = 'أ' ∨ c = 'إ' ∨ c = 'ٱ' then 'ا' else c

/-- Teh-Marbuta normalization `re.sub(r'ة(?=\s|$)', 'ه', text)` (line 77):
the lookahead keeps the following whitespace in place. -/
def norm_teh : List Char → List Char
  | [] => []
  | [c] => if c = 'ة' then ['ه'] else [c]
  | c₁ :: c₂ :: rest =>
      (if c₁ = 'ة' ∧ is_py_space c₂ then 'ه' else c₁) :: norm_teh (c₂ :: rest)

/-- Yeh normalization `re.sub(r'[يئ]', 'ي', text)` (line 80). -/
def norm_yeh (c : Char) : Char :=
  if c = 'ي' ∨ c = 'ئ' then 'ي' else c

/-- Embedding of `normalize_arabic` (lines 63-82): the three substitutions
in source order. -/
def normalize_arabic (l : List Char) : List Char :=
  (norm_teh (l.map norm_alef)).map norm_yeh

/-- Embedding of `clean_text` (lines 39-61): strip tags, collapse
whitespace, trim, normalize Arabic characters. -/
def clean_text (text : String) : String :=
  String.mk (normalize_arabic (py_strip (collapse_ws (strip_tags text.data))))

/-- Python `str.split()` with no separator: split on whitespace runs,
dropping empty fields. -/
def py_split_aux : List Char → List Char → List String
  | [], acc => if acc = [] then [] else [String.mk acc.reverse]
  | c :: rest, acc =>
      if is_py_space c then
        if acc = [] then py_split_aux rest []
        else String.mk acc.reverse :: py_split_aux rest []
      else py_split_aux rest (c :: acc)

/-- Python `text.split()`. -/
def py_split (s : String) : List String := py_split_aux s.data []

/-- Loop body of `split_long_text` (lines 84-110): greedy word packing;
note the length test always counts the joining space, even into an empty
current line, and a pushed line is `strip`ped. -/
def split_long_text_go (max_chars_per_line : ℕ) :
    List String → String → List String → List String
  | [], current_line, lines =>
      if current_line ≠ "" then
        lines ++ [String.mk (py_strip current_line.data)]
      else lines
  | word :: words, current_line, lines =>
      if (current_line ++ " " ++ word).length ≤ max_chars_per_line then
        split_long_text_go max_chars_per_line words
          (if current_line ≠ "" then current_line ++ " " ++ word else word) lines
      else
        if current_line ≠ "" then
          split_long_text_go max_chars_per_line words word
            (lines ++ [String.mk (py_strip current_line.data)])
        else split_long_text_go max_chars_per_line words word lines

/-- Embedding of `split_long_text` (lines 84-110). -/
def split_long_text (text : String) (max_chars_per_line : ℕ) : List String :=
  split_long_text_go max_chars_per_line (py_split text) "" []

/-- Embedding of `process_text` (lines 13-37), with the two external
library calls as fallible oracles: clean, reshape, reorder; any oracle
failure is caught and the original input text returned. -/
def process_text_with (reshape get_display : String → Option String)
    (text : String) : String :=
  match reshape (clean_text text) with
  | none => text
  | some reshaped_text =>
      match get_display reshaped_text with
      | none => text
      | some bidi_text => bidi_text

/-- Embedding of `process_multiline_text` (lines 112-125): wrap, shape each
line, rejoin with a line break. -/
def process_multiline_text_with (reshape get_display : String → Option String)
    (text : String) (max_chars_per_line : ℕ) : String :=
  String.intercalate "\n"
    ((split_long_text text max_chars_per_line).map
      (process_text_with reshape get_display))

/-- Arabic character test of `is_arabic` (lines 127-138): the Unicode
ranges of the source's regex. -/
def is_arabic_char (c : Char) : Bool :=
  (0x600 ≤ c.toNat && c.toNat ≤ 0x6FF) ||
  (0x750 ≤ c.toNat && c.toNat ≤ 0x77F) ||
  (0x8A0 ≤ c.toNat && c.toNat ≤ 0x8FF) ||
  (0xFB50 ≤ c.toNat && c.toNat ≤ 0xFDFF) ||
  (0xFE70 ≤ c.toNat && c.toNat ≤ 0xFEFF)

/-- Embedding of `is_arabic` (lines 127-138). -/
def is_arabic (text : String) : Bool := text.data.any is_arabic_char

/-- Embedding of `format_subtitle_text` (lines 155-169): `max_width`
truthiness selects the wrapping pipeline (`0` and `None` are both falsy). -/
def format_subtitle_text_with (reshape get_display : String → Option String)
    (text : String) (max_width : Option ℕ) : String :=
  match max_width with
  | some w =>
      if w ≠ 0 then process_multiline_text_with reshape get_display text w
      else process_text_with reshape get_display text
  | none => process_text_with reshape get_display text

/-!
General lemmas about the windower, shared by several of the claim theorems
below.
-/

/-- In preview mode the loop body keeps a cue exactly when the clamped start
is below the horizon and below the horizon-truncated end. -/
lemma window_cue_preview_eq (o H D : ℚ) (sub : Cue) :
    window_cue o true H D sub =
      if max 0 (sub.start + o) < H ∧
         max 0 (sub.start + o) < min (sub.stop + o) H then
        some (max 0 (sub.start + o), min (sub.stop + o) H)
      else none := by
  unfold window_cue
  have hmin : (if sub.stop + o > H then H else sub.stop + o) = min (sub.stop + o) H := by
    split_ifs with h
    · exact (min_eq_right h.le).symm
    · exact (min_eq_left (not_lt.mp h)).symm
  simp only [if_true, hmin, ge_iff_le]
  by_cases h1 : H ≤ max 0 (sub.start + o)
  · rw [if_pos h1, if_neg (fun hc => absurd hc.1 (not_lt.mpr h1))]
  · rw [if_neg h1]
    by_cases h2 : min (sub.stop + o) H ≤ max 0 (sub.start + o)
    · rw [if_pos h2, if_neg (fun hc => absurd hc.2 (not_lt.mpr h2))]
    · rw [if_neg h2, if_pos ⟨not_le.mp h1, not_le.mp h2⟩]

/-- In full-export mode the loop body keeps a cue exactly when the clamped
start is below the clip duration and below the duration-truncated end. -/
lemma window_cue_export_eq (o pe D : ℚ) (sub : Cue) :
    window_cue o false pe D sub =
      if max 0 (sub.start + o) < D ∧
         max 0 (sub.start + o) < min (sub.stop + o) D then
        some (max 0 (sub.start + o), min (sub.stop + o) D)
      else none := by
  unfold window_cue
  have hmin : (if sub.stop + o > D then D else sub.stop + o) = min (sub.stop + o) D := by
    split_ifs with h
    · exact (min_eq_right h.le).symm
    · exact (min_eq_left (not_lt.mp h)).symm
  simp only [Bool.false_eq_true, if_false, hmin, ge_iff_le]
  by_cases h1 : D ≤ max 0 (sub.start + o)
  · rw [if_pos h1, if_neg (fun hc => absurd hc.1 (not_lt.mpr h1))]
  · rw [if_neg h1]
    by_cases h2 : min (sub.stop + o) D ≤ max 0 (sub.start + o)
    · rw [if_pos h2, if_neg (fun hc => absurd hc.2 (not_lt.mpr h2))]
    · rw [if_neg h2, if_pos ⟨not_le.mp h1, not_le.mp h2⟩]

/-- A kept cue has a strictly positive effective duration. -/
lemma window_cue_some_lt (o : ℚ) (pv : Bool) (pe D : ℚ) (sub : Cue) (p : ℚ × ℚ)
    (h : window_cue o pv pe D sub = some p) : p.1 < p.2 := by
  rcases pv with _ | _
  · rw [window_cue_export_eq] at h
    split_ifs at h with hc
    · cases h; exact hc.2
  · rw [window_cue_preview_eq] at h
    split_ifs at h with hc
    · cases h; exact hc.2

/-- Explicit form of the layer list emitted for a single cue. -/
lemma cue_layers_eq (a : String → String) (ts : String → ℤ × ℤ)
    (s : Settings) (vw vh : ℤ) (text : String) (st et : ℚ) :
    cue_layers a ts s vw vh text st et =
      (if s.shadow_enabled.getD false = true ∧
          (s.shadow_offset_x.getD 2 ≠ 0 ∨ s.shadow_offset_y.getD 2 ≠ 0) then
         [{ kind := ClipKind.shadow, content := a text, lstart := st,
            lstop := st + (et - st),
            opacity := if s.shadow_blur.getD 3 > 0 then
                         max 0.3 (1 - s.shadow_blur.getD 3 / 20) else 1,
            pos := shadow_position (get_subtitle_position s vw vh)
                     (s.shadow_offset_x.getD 2, s.shadow_offset_y.getD 2) }]
       else []) ++
      [{ kind := ClipKind.text, content := a text, lstart := st,
         lstop := st + (et - st), opacity := 1,
         pos := get_subtitle_position s vw vh }] := by
  by_cases hca : s.shadow_enabled.getD false = true ∧
      (s.shadow_offset_x.getD 2 ≠ 0 ∨ s.shadow_offset_y.getD 2 ≠ 0)
  · simp only [cue_layers, create_subtitle_clip, if_pos hca]
    simp [hca.1]
  · simp only [cue_layers, create_subtitle_clip, if_neg hca]
    rcases Bool.eq_false_or_eq_true (s.shadow_enabled.getD false) with he | he
    · simp [he]
    · simp [he]

/-- Every layer emitted for a single cue carries that cue's effective start
and end. -/
lemma cue_layers_times (a : String → String) (ts : String → ℤ × ℤ)
    (s : Settings) (vw vh : ℤ) (text : String) (st et : ℚ) (L : Layer)
    (hL : L ∈ cue_layers a ts s vw vh text st et) :
    L.lstart = st ∧ L.lstop = et := by
  rw [cue_layers_eq] at hL
  rcases List.mem_append.mp hL with hL | hL
  · by_cases hc : s.shadow_enabled.getD false = true ∧
        (s.shadow_offset_x.getD 2 ≠ 0 ∨ s.shadow_offset_y.getD 2 ≠ 0)
    · rw [if_pos hc] at hL
      rcases List.mem_singleton.mp hL with rfl
      refine ⟨rfl, ?_⟩
      show st + (et - st) = et
      ring
    · rw [if_neg hc] at hL
      exact absurd hL (List.not_mem_nil L)
  · rcases List.mem_singleton.mp hL with rfl
    refine ⟨rfl, ?_⟩
    show st + (et - st) = et
    ring

/-- With an active preview bound, `apply_subtitles` pre-filters on the raw
cue start and then windows each survivor. -/
lemma apply_subtitles_preview_eq (a : String → String) (ts : String → ℤ × ℤ)
    (D : ℚ) (vw vh : ℤ) (cues : List Cue) (s : Settings) (H : ℚ) (hH : H ≠ 0) :
    apply_subtitles a ts D vw vh cues s true (some H) =
      ((cues.filter (fun sub => decide (sub.start < H))).filterMap (fun sub =>
        (window_cue (s.subtitle_offset.getD 0) true H D sub).map
          (fun p => cue_layers a ts s vw vh sub.text p.1 p.2))).flatten := by
  have hd : decide (H ≠ 0) = true := decide_eq_true hH
  simp only [apply_subtitles, hd, Bool.and_self, Option.getD_some, if_true]

/-- Without an active preview bound, `apply_subtitles` windows every cue
against the clip duration. -/
lemma apply_subtitles_export_eq (a : String → String) (ts : String → ℤ × ℤ)
    (D : ℚ) (vw vh : ℤ) (cues : List Cue) (s : Settings) (pe : Option ℚ) :
    apply_subtitles a ts D vw vh cues s false pe =
      (cues.filterMap (fun sub =>
        (window_cue (s.subtitle_offset.getD 0) false (pe.getD 0) D sub).map
          (fun p => cue_layers a ts s vw vh sub.text p.1 p.2))).flatten := by
  simp only [apply_subtitles, Bool.false_and, Bool.false_eq_true, if_false]

/-!
Claim theorems.
-/

/-- C2: for every cue list, style settings and render bound, every subtitle
layer handed to the compositing step after windowing has
`effective_start < effective_end`; cues whose clamped interval becomes
degenerate are discarded and never rendered. -/
theorem C2_no_degenerate_layers (a : String → String) (ts : String → ℤ × ℤ)
    (D : ℚ) (vw vh : ℤ) (cues : List Cue) (s : Settings)
    (preview_only : Bool) (preview_end : Option ℚ) :
    ∀ L ∈ apply_subtitles a ts D vw vh cues s preview_only preview_end,
      L.lstart < L.lstop := by
  intro L hL
  unfold apply_subtitles at hL
  simp only [List.mem_flatten, List.mem_filterMap, Option.map_eq_some'] at hL
  obtain ⟨bl, ⟨sub, hsub, p, hw, hbl⟩, hLb⟩ := hL
  subst hbl
  obtain ⟨h1, h2⟩ := cue_layers_times _ _ _ _ _ _ _ _ _ hLb
  rw [h1, h2]
  exact window_cue_some_lt _ _ _ _ _ _ hw

/-- C2 witness: a concrete export run emits the expected single glyph layer,
whose interval is non-degenerate by `C2_no_degenerate_layers`. -/
theorem C2_witness :
    ({ kind := ClipKind.text, content := "hi", lstart := 1, lstop := 3, opacity := 1,
       pos := (PosCoord.center, PosCoord.px 1050) } : Layer) ∈
      apply_subtitles id (fun _ => (100, 30)) 10 1920 1080
        [{ index := 1, start := 1, stop := 3, text := "hi" }] {} false none ∧
    ({ kind := ClipKind.text, content := "hi", lstart := 1, lstop := 3, opacity := 1,
       pos := (PosCoord.center, PosCoord.px 1050) } : Layer).lstart <
    ({ kind := ClipKind.text, content := "hi", lstart := 1, lstop := 3, opacity := 1,
       pos := (PosCoord.center, PosCoord.px 1050) } : Layer).lstop := by
  have hrun : apply_subtitles id (fun _ => (100, 30)) 10 1920 1080
      [{ index := 1, start := 1, stop := 3, text := "hi" }] {} false none =
      [{ kind := ClipKind.text, content := "hi", lstart := 1, lstop := 3, opacity := 1,
         pos := (PosCoord.center, PosCoord.px 1050) }] := by
    norm_num [apply_subtitles, window_cue, cue_layers, create_subtitle_clip,
      get_subtitle_position, create_background_clip, List.filterMap_cons]
    decide
  constructor
  · rw [hrun]
    exact List.mem_singleton.mpr rfl
  · exact C2_no_degenerate_layers id (fun _ => (100, 30)) 10 1920 1080
      [{ index := 1, start := 1, stop := 3, text := "hi" }] {} false none _
      (by rw [hrun]; exact List.mem_singleton.mpr rfl)

/-- Truncation toward zero agrees with the floor on nonnegative rationals. -/
lemma py_int_eq_floor (q : ℚ) (hq : 0 ≤ q) : py_int q = ⌊q⌋ := by
  unfold py_int
  rw [Rat.floor_def]
  exact Int.tdiv_eq_ediv (Rat.num_nonneg.mpr hq) (Int.natCast_nonneg q.den)

/-- The concatenation the spec intends covers the bound exactly: for
`B/d > 1.5` the intended loop-and-truncate duration is `B`. -/
lemma loop_concat_duration_eq_bound (s : Settings) (d B : ℚ)
    (hd : 0 < d) (hr : B / d > 1.5) :
    loop_concat_duration s d B = B := by
  have hB : 1.5 * d < B := by
    rw [gt_iff_lt, lt_div_iff₀ hd] at hr
    linarith
  have hq : (0 : ℚ) ≤ B / d := by positivity
  simp only [loop_concat_duration, process_audio_duration]
  rw [py_int_eq_floor _ hq]
  have hcover : B ≤ d * ((⌊B / d⌋ : ℚ) + 1) := by
    have h1 : B / d < (⌊B / d⌋ : ℚ) + 1 := Int.lt_floor_add_one _
    calc B = d * (B / d) := by field_simp
    _ ≤ d * ((⌊B / d⌋ : ℚ) + 1) := by nlinarith
  have hcover2 : B ≤ d * ((⌊B / d⌋ + 1 : ℤ) : ℚ) := by push_cast; exact hcover
  exact min_eq_right hcover2

/-- C5 (code bug evidence): at audio duration 2 against a 10-second bound
(ratio 5 > 1.5) the loop branch of `adjust_audio_to_video` is taken and
raises — line 127 calls `concatenate_audioclips` as a clip method, which
no MoviePy clip class has, and line 133 re-wraps the `AttributeError` —
so the function never returns looped audio of duration exactly 10, while
the loop-concatenate-then-truncate step the spec describes would yield
exactly the 10-second bound. -/
theorem C5_audio_loop_raises :
    adjust_audio_to_video {} 2 10 =
      Except.error "Error adjusting audio: AttributeError" ∧
    (10 : ℚ) / 2 > 1.5 ∧
    loop_concat_duration {} 2 10 = 10 := by
  refine ⟨?_, by norm_num,
    loop_concat_duration_eq_bound {} 2 10 (by norm_num) (by norm_num)⟩
  norm_num [adjust_audio_to_video, process_audio_duration]

/-- C10: the position resolver recognizes only the Arabic tokens; any other
position value (missing key or English word included) falls to the bottom
default `video_height - margin_vertical`, and any other alignment value
falls to the symbolic horizontal center. -/
theorem C10_unrecognized_tokens_fall_through (s : Settings) (vw vh : ℤ) :
    (s.position ≠ some "أعلى" → s.position ≠ some "وسط" →
      (get_subtitle_position s vw vh).2 = .px (vh - s.margin_vertical.getD 30)) ∧
    (s.alignment ≠ some "يسار" → s.alignment ≠ some "يمين" →
      (get_subtitle_position s vw vh).1 = .center) ∧
    (s.position = some "أعلى" →
      (get_subtitle_position s vw vh).2 = .px (s.margin_vertical.getD 30)) ∧
    (s.position = some "وسط" → (get_subtitle_position s vw vh).2 = .center) ∧
    (s.alignment = some "يسار" →
      (get_subtitle_position s vw vh).1 = .px (s.margin_horizontal.getD 20)) ∧
    (s.alignment = some "يمين" →
      (get_subtitle_position s vw vh).1 = .px (vw - s.margin_horizontal.getD 20)) := by
  refine ⟨fun h1 h2 => ?_, fun h1 h2 => ?_, fun h => ?_, fun h => ?_, fun h => ?_,
    fun h => ?_⟩ <;>
    simp only [get_subtitle_position]
  · have ha : s.position.getD "أسفل" ≠ "أعلى" := by
      cases hp : s.position with
      | none => simp [hp]
      | some p => simpa [hp] using fun hpe => h1 (by rw [hp, hpe])
    have hb : s.position.getD "أسفل" ≠ "وسط" := by
      cases hp : s.position with
      | none => simp [hp]
      | some p => simpa [hp] using fun hpe => h2 (by rw [hp, hpe])
    simp [ha, hb]
  · have ha : s.alignment.getD "وسط" ≠ "يسار" := by
      cases hp : s.alignment with
      | none => simp [hp]
      | some p => simpa [hp] using fun hpe => h1 (by rw [hp, hpe])
    have hb : s.alignment.getD "وسط" ≠ "يمين" := by
      cases hp : s.alignment with
      | none => simp [hp]
      | some p => simpa [hp] using fun hpe => h2 (by rw [hp, hpe])
    simp [ha, hb]
  · simp [h]
  · have : s.position.getD "أسفل" = "وسط" := by simp [h]
    simp [this]
  · simp [h]
  · have : s.alignment.getD "وسط" = "يمين" := by simp [h]
    simp [this]

/-- C10 witness: English tokens `top`/`left` are not recognized and resolve
to the default bottom-right-of-policy anchor (bottom vertical, centered
horizontal). -/
theorem C10_witness :
    (get_subtitle_position { position := some "top", alignment := some "left" }
        1920 1080).2 = .px (1080 - 30) ∧
    (get_subtitle_position { position := some "top", alignment := some "left" }
        1920 1080).1 = .center :=
  ⟨(C10_unrecognized_tokens_fall_through
      { position := some "top", alignment := some "left" } 1920 1080).1
      (by decide) (by decide),
   (C10_unrecognized_tokens_fall_through
      { position := some "top", alignment := some "left" } 1920 1080).2.1
      (by decide) (by decide)⟩

/-- C4 counterexample: with unspecified alignment (and the claimed margins,
on a 1920×1080 frame) the resolver yields a symbolic-center horizontal
anchor, not the claimed right-margin anchor `1920 - 20 = 1900`. -/
theorem C4_counterexample :
    get_subtitle_position { margin_horizontal := some 20, margin_vertical := some 30 }
        1920 1080 = (.center, .px 1050) ∧
    (PosCoord.center : PosCoord) ≠ .px (1920 - 20) := by
  constructor
  · simp [get_subtitle_position]
  · decide

/-- C4 (amended): the position policy maps explicit tokens as claimed —
vertical `margin_vertical` for top, symbolic center for center,
`video_height - margin_vertical` for bottom; horizontal `margin_horizontal`
for left, `video_width - margin_horizontal` for right, symbolic center for
center — and the scenario `position=bottom, alignment=right` with margins
(20, 30) on 1920×1080 yields `(1900, 1050)`; but an unspecified alignment
behaves as center (the default), not as right. -/
theorem C4_position_policy_amended (s : Settings) (vw vh : ℤ) :
    (s.position = some "أعلى" →
      (get_subtitle_position s vw vh).2 = .px (s.margin_vertical.getD 30)) ∧
    (s.position = some "وسط" → (get_subtitle_position s vw vh).2 = .center) ∧
    (s.position = some "أسفل" →
      (get_subtitle_position s vw vh).2 = .px (vh - s.margin_vertical.getD 30)) ∧
    (s.alignment = some "يسار" →
      (get_subtitle_position s vw vh).1 = .px (s.margin_horizontal.getD 20)) ∧
    (s.alignment = some "يمين" →
      (get_subtitle_position s vw vh).1 = .px (vw - s.margin_horizontal.getD 20)) ∧
    (s.alignment = some "وسط" → (get_subtitle_position s vw vh).1 = .center) ∧
    (s.alignment = none → (get_subtitle_position s vw vh).1 = .center) ∧
    get_subtitle_position
        { position := some "أسفل", alignment := some "يمين",
          margin_horizontal := some 20, margin_vertical := some 30 } 1920 1080 =
      (.px 1900, .px 1050) := by
  exact ⟨fun h => by simp [get_subtitle_position, h],
    fun h => by simp [get_subtitle_position, h],
    fun h => by simp [get_subtitle_position, h],
    fun h => by simp [get_subtitle_position, h],
    fun h => by simp [get_subtitle_position, h],
    fun h => by simp [get_subtitle_position, h],
    fun h => by simp [get_subtitle_position, h],
    by simp [get_subtitle_position]⟩

/-- C4 witness: the amended policy applied at explicit top-left tokens with
margins (5, 7) on a 640×480 frame. -/
theorem C4_witness :
    (get_subtitle_position
        { position := some "أعلى", alignment := some "يسار",
          margin_horizontal := some 5, margin_vertical := some 7 } 640 480).2 =
      .px 7 ∧
    (get_subtitle_position
        { position := some "أعلى", alignment := some "يسار",
          margin_horizontal := some 5, margin_vertical := some 7 } 640 480).1 =
      .px 5 :=
  ⟨(C4_position_policy_amended
      { position := some "أعلى", alignment := some "يسار",
        margin_horizontal := some 5, margin_vertical := some 7 } 640 480).1 rfl,
   (C4_position_policy_amended
      { position := some "أعلى", alignment := some "يسار",
        margin_horizontal := some 5, margin_vertical := some 7 } 640 480).2.2.2.1 rfl⟩

/-- C1 counterexample: keeping a cue does not depend only on its
offset-adjusted times.  With `subtitle_offset = -10` and preview horizon 30,
the cue `(35, 40)` has offset-adjusted start `25 < 30` and offset-adjusted
interval `(25, 30)`, yet it is dropped (the pre-filter compares the raw
start `35` with the horizon), while the cue `(25, 30)` with offset `0` —
the same offset-adjusted times — is kept. -/
theorem C1_counterexample :
    apply_subtitles id (fun _ => (100, 30)) 100 1920 1080
        [{ index := 1, start := 35, stop := 40, text := "x" }]
        { subtitle_offset := some (-10) } true (some 30) = [] ∧
    max 0 ((35 : ℚ) + (-10)) < 30 ∧
    apply_subtitles id (fun _ => (100, 30)) 100 1920 1080
        [{ index := 1, start := 25, stop := 30, text := "x" }]
        { subtitle_offset := some 0 } true (some 30) ≠ [] := by
  refine ⟨?_, ?_, ?_⟩
  · norm_num [apply_subtitles, List.filter_cons, window_cue, cue_layers,
      create_subtitle_clip, create_background_clip, get_subtitle_position,
      List.filterMap_cons]
  · rw [max_eq_right (by norm_num : (0 : ℚ) ≤ 35 + (-10))]
    norm_num
  · norm_num [apply_subtitles, List.filter_cons, window_cue, cue_layers,
      create_subtitle_clip, create_background_clip, get_subtitle_position,
      List.filterMap_cons]

/-- C1 (amended): in preview mode with horizon `H` the windower first drops
cues whose raw (unadjusted) start is `≥ H`; each survivor is kept exactly
when its offset-adjusted clamped start is `< H` and below its
horizon-truncated end `min(end + offset, H)`, with the end truncated to the
horizon; for `subtitle_offset = 0` this reduces to the claimed rule, and the
3-cue scenario (1–3, 4.5–6, 58–62 seconds, bound 30, preview) yields exactly
the first two cues, the third dropped. -/
theorem C1_preview_window_amended (a : String → String) (ts : String → ℤ × ℤ)
    (D : ℚ) (vw vh : ℤ) (sub : Cue) (s : Settings) (H : ℚ) (hH : H ≠ 0) :
    (apply_subtitles a ts D vw vh [sub] s true (some H) =
      if sub.start < H ∧ max 0 (sub.start + s.subtitle_offset.getD 0) < H ∧
         max 0 (sub.start + s.subtitle_offset.getD 0) <
           min (sub.stop + s.subtitle_offset.getD 0) H then
        cue_layers a ts s vw vh sub.text
          (max 0 (sub.start + s.subtitle_offset.getD 0))
          (min (sub.stop + s.subtitle_offset.getD 0) H)
      else []) ∧
    (apply_subtitles id (fun _ => (100, 30)) 100 1920 1080
        [{ index := 1, start := 1, stop := 3, text := "a" },
         { index := 2, start := 9 / 2, stop := 6, text := "b" },
         { index := 3, start := 58, stop := 62, text := "c" }] {} true
        (some 30)).map (fun L => (L.content, L.lstart, L.lstop)) =
      [("a", 1, 3), ("b", 9 / 2, 6)] := by
  constructor
  · rw [apply_subtitles_preview_eq a ts D vw vh [sub] s H hH]
    have hfil : [sub].filter (fun c => decide (c.start < H)) =
        if sub.start < H then [sub] else [] := by
      simp [List.filter_cons]
    rw [hfil]
    by_cases h1 : sub.start < H
    · rw [if_pos h1]
      simp only [List.filterMap_cons, List.filterMap_nil, window_cue_preview_eq]
      by_cases h2 : max 0 (sub.start + s.subtitle_offset.getD 0) < H ∧
          max 0 (sub.start + s.subtitle_offset.getD 0) <
            min (sub.stop + s.subtitle_offset.getD 0) H
      · rw [if_pos h2, if_pos ⟨h1, h2.1, h2.2⟩]
        simp
      · rw [if_neg h2, if_neg (fun hc => h2 ⟨hc.2.1, hc.2.2⟩)]
        simp
    · rw [if_neg h1, if_neg (fun hc => h1 hc.1)]
      simp
  · norm_num [apply_subtitles, List.filter_cons, window_cue, cue_layers,
      create_subtitle_clip, create_background_clip, get_subtitle_position,
      List.filterMap_cons]

/-- C1 witness: the amended characterization applied to the straddling cue
`(25, 35)` at horizon 30 with offset 0: kept, with its end truncated to the
horizon. -/
theorem C1_witness :
    (30 : ℚ) ≠ 0 ∧
    apply_subtitles id (fun _ => (100, 30)) 100 1920 1080
        [{ index := 1, start := 25, stop := 35, text := "x" }] {} true (some 30) =
      (if (25 : ℚ) < 30 ∧ max 0 ((25 : ℚ) + (none : Option ℚ).getD 0) < 30 ∧
          max 0 ((25 : ℚ) + (none : Option ℚ).getD 0) <
            min ((35 : ℚ) + (none : Option ℚ).getD 0) 30 then
        cue_layers id (fun _ => (100, 30)) {} 1920 1080 "x"
          (max 0 ((25 : ℚ) + (none : Option ℚ).getD 0))
          (min ((35 : ℚ) + (none : Option ℚ).getD 0) 30)
      else []) := by
  constructor
  · norm_num
  · exact (C1_preview_window_amended id (fun _ => (100, 30)) 100 1920 1080
      { index := 1, start := 25, stop := 35, text := "x" } {} 30 (by norm_num)).1

/-- C7: the windower applies the signed `subtitle_offset` to every cue and
clamps only the start to `max(0, start + offset)`; an in-bound cue whose
clamped duration stays positive is kept with exactly those times, and the
scenario `(1.0, 3.0)` with `subtitle_offset = -2.0` is emitted with
effective times `(0.0, 1.0)`. -/
theorem C7_offset_clamps_start_only :
    (∀ (a : String → String) (ts : String → ℤ × ℤ) (D : ℚ) (vw vh : ℤ)
       (sub : Cue) (s : Settings),
       max 0 (sub.start + s.subtitle_offset.getD 0) < D →
       sub.stop + s.subtitle_offset.getD 0 ≤ D →
       max 0 (sub.start + s.subtitle_offset.getD 0) <
         sub.stop + s.subtitle_offset.getD 0 →
       apply_subtitles a ts D vw vh [sub] s false none =
         cue_layers a ts s vw vh sub.text
           (max 0 (sub.start + s.subtitle_offset.getD 0))
           (sub.stop + s.subtitle_offset.getD 0)) ∧
    (apply_subtitles id (fun _ => (100, 30)) 10 1920 1080
        [{ index := 1, start := 1, stop := 3, text := "x" }]
        { subtitle_offset := some (-2) } false none).map
        (fun L => (L.lstart, L.lstop)) = [(0, 1)] := by
  constructor
  · intro a ts D vw vh sub s h1 h2 h3
    rw [apply_subtitles_export_eq]
    simp only [List.filterMap_cons, List.filterMap_nil, window_cue_export_eq,
      Option.getD_none]
    rw [min_eq_left h2, if_pos ⟨h1, h3⟩]
    simp
  · norm_num [apply_subtitles, window_cue, cue_layers, create_subtitle_clip,
      create_background_clip, get_subtitle_position, List.filterMap_cons]

/-- C7 witness: the general part of `C7_offset_clamps_start_only` applied to
the scenario cue `(1, 3)` with offset `-2` and a 10-second export bound. -/
theorem C7_witness :
    max 0 ((1 : ℚ) + ({ subtitle_offset := some (-2) } : Settings).subtitle_offset.getD 0) < 10 ∧
    (3 : ℚ) + ({ subtitle_offset := some (-2) } : Settings).subtitle_offset.getD 0 ≤ 10 ∧
    max 0 ((1 : ℚ) + ({ subtitle_offset := some (-2) } : Settings).subtitle_offset.getD 0) <
      (3 : ℚ) + ({ subtitle_offset := some (-2) } : Settings).subtitle_offset.getD 0 ∧
    apply_subtitles id (fun _ => (100, 30)) 10 1920 1080
        [{ index := 1, start := 1, stop := 3, text := "x" }]
        { subtitle_offset := some (-2) } false none =
      cue_layers id (fun _ => (100, 30)) { subtitle_offset := some (-2) } 1920 1080 "x"
        (max 0 ((1 : ℚ) + ({ subtitle_offset := some (-2) } : Settings).subtitle_offset.getD 0))
        ((3 : ℚ) + ({ subtitle_offset := some (-2) } : Settings).subtitle_offset.getD 0) :=
  ⟨by norm_num, by norm_num, by norm_num,
   C7_offset_clamps_start_only.1 id (fun _ => (100, 30)) 10 1920 1080
     { index := 1, start := 1, stop := 3, text := "x" }
     { subtitle_offset := some (-2) }
     (by norm_num) (by norm_num) (by norm_num)⟩

/-- C3 (code bug evidence): with `bg_opacity = 0.7 > 0` the background plate
is built — sized to the text bounding box plus (20, 10) padding, with
opacity 0.7 — but only into the local `clips_to_composite` list, where it
sits above the shadow (shadow, background, text), and `create_subtitle_clip`
returns only the text clip, so the layer stack the compositor receives is
`[shadow, text]` with no background plate at all. -/
theorem C3_background_dropped_from_composite :
    ((apply_subtitles id (fun _ => (100, 30)) 10 1920 1080
        [{ index := 1, start := 0, stop := 2, text := "hi" }]
        { bg_opacity := some 0.7, shadow_enabled := some true,
          shadow_offset_x := some 2, shadow_offset_y := some 2,
          shadow_blur := some 3 } false none).map Layer.kind =
      [ClipKind.shadow, ClipKind.text]) ∧
    ((create_subtitle_clip id (fun _ => (100, 30)) "hi" 0 2
        { bg_opacity := some 0.7, shadow_enabled := some true,
          shadow_offset_x := some 2, shadow_offset_y := some 2,
          shadow_blur := some 3 }).composite.map
        (fun c => (c.kind, c.size, c.opacity)) =
      [(ClipKind.shadow, ((100 : ℤ), (30 : ℤ)), (0.85 : ℚ)),
       (ClipKind.background, (120, 40), 0.7),
       (ClipKind.text, (100, 30), 1)]) ∧
    (0 : ℚ) < 0.7 := by
  refine ⟨?_, ?_, by norm_num⟩
  · norm_num [apply_subtitles, window_cue, cue_layers, create_subtitle_clip,
      create_background_clip, get_subtitle_position, List.filterMap_cons]
  · norm_num [create_subtitle_clip, create_background_clip]

/-- C6: a shadow layer is emitted for a cue exactly when `shadow_enabled`
holds and at least one shadow offset is non-zero; its opacity equals
`max(0.3, 1 - blur/20)` (for the non-negative blur range the UI exposes),
and its anchor is the glyph anchor with each numeric axis shifted by the
corresponding offset while a symbolic-center axis stays symbolic, whichever
axis is the symbolic one. -/
theorem C6_shadow_layer_shape (a : String → String) (ts : String → ℤ × ℤ)
    (s : Settings) (vw vh : ℤ) (text : String) (st et : ℚ)
    (hblur : 0 ≤ s.shadow_blur.getD 3) :
    ((∃ L ∈ cue_layers a ts s vw vh text st et, L.kind = ClipKind.shadow) ↔
      s.shadow_enabled.getD false = true ∧
        (s.shadow_offset_x.getD 2 ≠ 0 ∨ s.shadow_offset_y.getD 2 ≠ 0)) ∧
    ∀ L ∈ cue_layers a ts s vw vh text st et, L.kind = ClipKind.shadow →
      L.opacity = max 0.3 (1 - s.shadow_blur.getD 3 / 20) ∧
      ((get_subtitle_position s vw vh).1 = .center → L.pos.1 = .center) ∧
      (∀ x : ℤ, (get_subtitle_position s vw vh).1 = .px x →
        L.pos.1 = .px (x + s.shadow_offset_x.getD 2)) ∧
      ((get_subtitle_position s vw vh).2 = .center → L.pos.2 = .center) ∧
      (∀ y : ℤ, (get_subtitle_position s vw vh).2 = .px y →
        L.pos.2 = .px (y + s.shadow_offset_y.getD 2)) := by
  have hop : (if s.shadow_blur.getD 3 > 0 then
      max 0.3 (1 - s.shadow_blur.getD 3 / 20) else 1) =
      max 0.3 (1 - s.shadow_blur.getD 3 / 20) := by
    split_ifs with h
    · rfl
    · have h0 : s.shadow_blur.getD 3 = 0 := le_antisymm (not_lt.mp h) hblur
      rw [h0]
      norm_num
  constructor
  · constructor
    · rintro ⟨L, hL, hk⟩
      rw [cue_layers_eq] at hL
      by_cases hc : s.shadow_enabled.getD false = true ∧
          (s.shadow_offset_x.getD 2 ≠ 0 ∨ s.shadow_offset_y.getD 2 ≠ 0)
      · exact hc
      · rw [if_neg hc, List.nil_append] at hL
        rcases List.mem_singleton.mp hL with rfl
        exact absurd hk (by simp)
    · intro hc
      refine ⟨{ kind := ClipKind.shadow, content := a text, lstart := st,
                lstop := st + (et - st),
                opacity := if s.shadow_blur.getD 3 > 0 then
                    max 0.3 (1 - s.shadow_blur.getD 3 / 20) else 1,
                pos := shadow_position (get_subtitle_position s vw vh)
                  (s.shadow_offset_x.getD 2, s.shadow_offset_y.getD 2) }, ?_, rfl⟩
      rw [cue_layers_eq, if_pos hc]
      exact List.mem_append_left _ (List.mem_singleton.mpr rfl)
  · intro L hL hk
    rw [cue_layers_eq] at hL
    by_cases hc : s.shadow_enabled.getD false = true ∧
        (s.shadow_offset_x.getD 2 ≠ 0 ∨ s.shadow_offset_y.getD 2 ≠ 0)
    · rw [if_pos hc] at hL
      rcases List.mem_append.mp hL with hL | hL
      · rcases List.mem_singleton.mp hL with rfl
        refine ⟨hop, ?_, ?_, ?_, ?_⟩ <;>
          rcases hp : get_subtitle_position s vw vh with ⟨g1, g2⟩ <;>
            cases g1 <;> cases g2 <;> simp_all [shadow_position]
      · rcases List.mem_singleton.mp hL with rfl
        exact absurd hk (by simp)
    · rw [if_neg hc, List.nil_append] at hL
      rcases List.mem_singleton.mp hL with rfl
      exact absurd hk (by simp)

/-- C6 witness: with shadow enabled, offsets `(2, 2)` and blur 3 a shadow
layer is present among the emitted layers. -/
theorem C6_witness :
    (0 : ℚ) ≤
      ({ shadow_enabled := some true, shadow_offset_x := some 2,
         shadow_offset_y := some 2,
         shadow_blur := some 3 } : Settings).shadow_blur.getD 3 ∧
    ∃ L ∈ cue_layers id (fun _ => (100, 30))
        ({ shadow_enabled := some true, shadow_offset_x := some 2,
           shadow_offset_y := some 2, shadow_blur := some 3 } : Settings)
        1920 1080 "hi" 0 2,
      L.kind = ClipKind.shadow :=
  ⟨by norm_num,
   (C6_shadow_layer_shape id (fun _ => (100, 30))
      { shadow_enabled := some true, shadow_offset_x := some 2,
        shadow_offset_y := some 2, shadow_blur := some 3 } 1920 1080 "hi" 0 2
      (by norm_num)).1.mpr ⟨rfl, Or.inl (by decide)⟩⟩

/-- C8: the text-shaping operation never raises: whichever of the reshaping
or bidi steps fails (the cleaning pass is pure and total), `process_text`
returns the original input text unchanged, otherwise it returns the shaped
text; and `format_subtitle_text` without a width is exactly `process_text`. -/
theorem C8_shaping_never_raises (reshape get_display : String → Option String)
    (text : String) :
    (reshape (clean_text text) = none →
      process_text_with reshape get_display text = text) ∧
    (∀ r, reshape (clean_text text) = some r → get_display r = none →
      process_text_with reshape get_display text = text) ∧
    (∀ r b, reshape (clean_text text) = some r → get_display r = some b →
      process_text_with reshape get_display text = b) ∧
    format_subtitle_text_with reshape get_display text none =
      process_text_with reshape get_display text := by
  refine ⟨fun h => ?_, fun r h1 h2 => ?_, fun r b h1 h2 => ?_, rfl⟩
  · simp [process_text_with, h]
  · simp [process_text_with, h1, h2]
  · simp [process_text_with, h1, h2]

/-- C8 witness: with both oracles failing on every input, shaping returns
the original text unchanged. -/
theorem C8_witness :
    process_text_with (fun _ => none) (fun _ => none) "hello <b>world</b>" =
      "hello <b>world</b>" :=
  (C8_shaping_never_raises (fun _ => none) (fun _ => none)
    "hello <b>world</b>").1 rfl

/-!
Lemmas for C9: idempotence of the cleaning pass on Latin text.
-/

/-- Characters of `strip_tags_aux` output satisfy any predicate holding on
the input, the buffer and the two bracket characters. -/
lemma mem_strip_tags_aux (P : Char → Prop) (hlt : P '<') (hgt : P '>') :
    ∀ (l : List Char) (st : Option (List Char)),
      (∀ c ∈ l, P c) → (∀ c ∈ st.getD [], P c) →
      ∀ c ∈ strip_tags_aux l st, P c := by
  intro l
  induction l with
  | nil =>
      intro st hl hbuf c hc
      cases st with
      | none => simp [strip_tags_aux] at hc
      | some buf =>
          simp only [strip_tags_aux] at hc
          rcases List.mem_cons.mp hc with rfl | hc
          · exact hlt
          · exact hbuf c (List.mem_reverse.mp hc)
  | cons a rest ih =>
      intro st hl hbuf c hc
      have hl' : ∀ c ∈ rest, P c := fun d hd => hl d (List.mem_cons_of_mem a hd)
      have hla : P a := hl a (List.mem_cons_self a rest)
      cases st with
      | none =>
          simp only [strip_tags_aux] at hc
          split_ifs at hc with ha
          · exact ih (some []) hl' (by simp) c hc
          · rcases List.mem_cons.mp hc with rfl | hc
            · exact hla
            · exact ih none hl' (by simp) c hc
      | some buf =>
          simp only [strip_tags_aux] at hc
          split_ifs at hc with ha hb
          · rcases List.mem_cons.mp hc with rfl | hc
            · exact hlt
            · rcases List.mem_cons.mp hc with rfl | hc
              · exact hgt
              · exact ih none hl' (by simp) c hc
          · exact ih none hl' (by simp) c hc
          · refine ih (some (a :: buf)) hl' ?_ c hc
            intro d hd
            rcases List.mem_cons.mp hd with rfl | hd
            · exact hla
            · exact hbuf d hd

/-- Characters of `collapse_ws` output satisfy any predicate holding on the
input and on the space character. -/
lemma mem_collapse_ws (P : Char → Prop) (hsp : P ' ') :
    ∀ l : List Char, (∀ c ∈ l, P c) → ∀ c ∈ collapse_ws l, P c := by
  intro l
  induction l with
  | nil => intro _ c hc; simp [collapse_ws] at hc
  | cons a rest ih =>
      intro hl c hc
      have hla : P a := hl a (List.mem_cons_self a rest)
      have hl' : ∀ c ∈ rest, P c := fun d hd => hl d (List.mem_cons_of_mem a hd)
      cases rest with
      | nil =>
          simp only [collapse_ws] at hc
          split_ifs at hc <;> rcases List.mem_singleton.mp hc with rfl
          · exact hsp
          · exact hla
      | cons b rest2 =>
          simp only [collapse_ws] at hc
          split_ifs at hc with h1 h2
          · exact ih hl' c hc
          · rcases List.mem_cons.mp hc with rfl | hc
            · exact hsp
            · exact ih hl' c hc
          · rcases List.mem_cons.mp hc with rfl | hc
            · exact hla
            · exact ih hl' c hc

/-- Characters survive `py_strip` into the original list. -/
lemma mem_py_strip (l : List Char) (c : Char) (hc : c ∈ py_strip l) : c ∈ l := by
  unfold py_strip at hc
  rw [List.mem_reverse] at hc
  have h1 := (List.dropWhile_sublist (l := (l.dropWhile is_py_space).reverse)
    is_py_space).mem hc
  rw [List.mem_reverse] at h1
  exact (List.dropWhile_sublist is_py_space).mem h1

/-- A pointwise-fixed map is the identity. -/
lemma map_eq_self_of {f : Char → Char} (l : List Char)
    (h : ∀ c ∈ l, f c = c) : l.map f = l := by
  rw [List.map_congr_left h]
  exact List.map_id' l

/-- Alef normalization fixes every non-Arabic character. -/
lemma norm_alef_eq_self (c : Char) (h : is_arabic_char c = false) :
    norm_alef c = c := by
  unfold norm_alef
  split_ifs with hc
  · rcases hc with rfl | rfl | rfl | rfl <;> exact absurd h (by decide)
  · rfl

/-- Yeh normalization fixes every non-Arabic character. -/
lemma norm_yeh_eq_self (c : Char) (h : is_arabic_char c = false) :
    norm_yeh c = c := by
  unfold norm_yeh
  split_ifs with hc
  · rcases hc with rfl | rfl <;> exact absurd h (by decide)
  · rfl

/-- Teh-Marbuta normalization fixes lists without the Teh Marbuta. -/
lemma norm_teh_eq_self : ∀ l : List Char, (∀ c ∈ l, c ≠ 'ة') →
    norm_teh l = l := by
  intro l
  induction l with
  | nil => intro _; rfl
  | cons a rest ih =>
      intro hl
      have hla : a ≠ 'ة' := hl a (List.mem_cons_self a rest)
      have hl' : ∀ c ∈ rest, c ≠ 'ة' := fun d hd => hl d (List.mem_cons_of_mem a hd)
      cases rest with
      | nil => simp [norm_teh, hla]
      | cons b rest2 =>
          simp only [norm_teh]
          rw [if_neg (fun hh => hla hh.1), ih hl']

/-- `normalize_arabic` is the identity on lists without Arabic characters. -/
lemma normalize_arabic_eq_self (l : List Char)
    (h : ∀ c ∈ l, is_arabic_char c = false) : normalize_arabic l = l := by
  unfold normalize_arabic
  rw [map_eq_self_of l (fun c hc => norm_alef_eq_self c (h c hc)),
    norm_teh_eq_self l (fun c hc hce => absurd (h c hc) (by subst hce; decide)),
    map_eq_self_of l (fun c hc => norm_yeh_eq_self c (h c hc))]

/-- Invariant of tag-stripped text: every `'<'` is either at the very end,
immediately followed by `'>'`, or has no `'>'` anywhere after it — exactly
the shapes on which `re.sub(r'<[^>]+>', '', ·)` finds no match. -/
def TagInv : List Char → Prop
  | [] => True
  | c :: rest =>
      (c = '<' → rest = [] ∨ (∃ r, rest = '>' :: r) ∨ '>' ∉ rest) ∧ TagInv rest

/-- A list without `'>'` satisfies the tag invariant. -/
lemma tag_inv_of_no_gt : ∀ l : List Char, '>' ∉ l → TagInv l := by
  intro l
  induction l with
  | nil => intro _; trivial
  | cons a rest ih =>
      intro h
      exact ⟨fun _ => Or.inr (Or.inr fun hr => h (List.mem_cons_of_mem a hr)),
        ih fun hr => h (List.mem_cons_of_mem a hr)⟩

/-- The tag invariant passes to any suffix. -/
lemma tag_inv_dropWhile (p : Char → Bool) :
    ∀ l : List Char, TagInv l → TagInv (l.dropWhile p) := by
  intro l
  induction l with
  | nil => intro _; trivial
  | cons a rest ih =>
      intro h
      by_cases hp : p a
      · rw [List.dropWhile_cons_of_pos hp]
        exact ih h.2
      · rw [List.dropWhile_cons_of_neg hp]
        exact h

/-- The tag invariant passes to any prefix. -/
lemma tag_inv_append_left : ∀ l₁ l₂ : List Char, TagInv (l₁ ++ l₂) → TagInv l₁ := by
  intro l₁
  induction l₁ with
  | nil => intro _ _; trivial
  | cons a r ih =>
      intro l₂ h
      refine ⟨fun ha => ?_, ih l₂ h.2⟩
      rcases h.1 ha with hnil | ⟨t, ht⟩ | hng
      · exact Or.inl (List.append_eq_nil.mp hnil).1
      · cases r with
        | nil => exact Or.inl rfl
        | cons b r2 =>
            have hb : b = '>' := by
              have := congrArg List.head? ht
              simpa using this
            exact Or.inr (Or.inl ⟨r2, by rw [hb]⟩)
      · exact Or.inr (Or.inr fun hr => hng (List.mem_append_left l₂ hr))

/-- An unterminated candidate tag is flushed verbatim. -/
lemma strip_tags_aux_no_gt : ∀ (rest : List Char), '>' ∉ rest →
    ∀ buf, strip_tags_aux rest (some buf) = '<' :: buf.reverse ++ rest := by
  intro rest
  induction rest with
  | nil => intro _ buf; simp [strip_tags_aux]
  | cons a r ih =>
      intro h buf
      have ha : ¬a = '>' := fun hh => h (by rw [hh]; exact List.mem_cons_self _ _)
      simp only [strip_tags_aux, if_neg ha]
      rw [ih (fun hr => h (List.mem_cons_of_mem a hr)) (a :: buf)]
      simp

/-- Evaluation rule: an opening bracket enters the buffering state. -/
lemma strip_tags_aux_cons_lt (rest : List Char) :
    strip_tags_aux ('<' :: rest) none = strip_tags_aux rest (some []) := rfl

/-- Evaluation rule: `'>'` on an empty buffer emits both brackets. -/
lemma strip_tags_aux_gt_empty (r : List Char) :
    strip_tags_aux ('>' :: r) (some []) = '<' :: '>' :: strip_tags_aux r none := rfl

/-- On invariant-satisfying input the tag scanner is the identity. -/
lemma strip_tags_eq_self_aux : ∀ (n : ℕ) (l : List Char), l.length ≤ n →
    TagInv l → strip_tags_aux l none = l := by
  intro n
  induction n with
  | zero =>
      intro l hl _
      rw [List.length_eq_zero.mp (Nat.le_zero.mp hl)]
      rfl
  | succ n ih =>
      intro l hl hInv
      cases l with
      | nil => rfl
      | cons a rest =>
          by_cases ha : a = '<'
          · subst ha
            rw [strip_tags_aux_cons_lt]
            rcases hInv.1 rfl with hnil | ⟨r, rfl⟩ | hng
            · subst hnil; rfl
            · rw [strip_tags_aux_gt_empty, ih r (by simp at hl ⊢; omega) hInv.2.2]
            · rw [strip_tags_aux_no_gt rest hng []]
              rfl
          · simp only [strip_tags_aux, if_neg ha]
            rw [ih rest (by simp at hl; omega) hInv.2]

/-- On invariant-satisfying input `strip_tags` is the identity. -/
lemma strip_tags_eq_self (l : List Char) (h : TagInv l) : strip_tags l = l :=
  strip_tags_eq_self_aux l.length l le_rfl h

/-- The tag scanner's output satisfies the tag invariant. -/
lemma tag_inv_strip_tags_aux :
    ∀ l : List Char, TagInv (strip_tags_aux l none) ∧
      ∀ buf, '>' ∉ buf → TagInv (strip_tags_aux l (some buf)) := by
  intro l
  induction l with
  | nil =>
      refine ⟨trivial, fun buf hbuf => ?_⟩
      show TagInv ('<' :: buf.reverse)
      refine ⟨fun _ => Or.inr (Or.inr fun h => hbuf (List.mem_reverse.mp h)), ?_⟩
      exact tag_inv_of_no_gt _ fun h => hbuf (List.mem_reverse.mp h)
  | cons a rest ih =>
      constructor
      · by_cases ha : a = '<'
        · subst ha
          simp only [strip_tags_aux, if_pos rfl]
          exact ih.2 [] (by simp)
        · simp only [strip_tags_aux, if_neg ha]
          exact ⟨fun h => absurd h ha, ih.1⟩
      · intro buf hbuf
        by_cases ha : a = '>'
        · subst ha
          simp only [strip_tags_aux, if_pos rfl]
          by_cases hb : buf = []
          · subst hb
            simp only [if_pos rfl]
            exact ⟨fun _ => Or.inr (Or.inl ⟨_, rfl⟩),
              ⟨fun h => absurd h (by decide), ih.1⟩⟩
          · rw [if_neg hb]
            exact ih.1
        · simp only [strip_tags_aux, if_neg ha]
          refine ih.2 (a :: buf) fun h => ?_
          rcases List.mem_cons.mp h with h | h
          · exact ha h.symm
          · exact hbuf h

/-- A non-whitespace head survives `collapse_ws` in place. -/
lemma collapse_ws_cons_not_sp (c : Char) (r : List Char)
    (hc : is_py_space c = false) : ∃ t, collapse_ws (c :: r) = c :: t := by
  cases r with
  | nil => exact ⟨[], by simp [collapse_ws, hc]⟩
  | cons b r2 => exact ⟨collapse_ws (b :: r2), by simp [collapse_ws, hc]⟩

/-- `collapse_ws` preserves the tag invariant. -/
lemma tag_inv_collapse_ws : ∀ l : List Char, TagInv l → TagInv (collapse_ws l) := by
  intro l
  induction l with
  | nil => intro _; trivial
  | cons a rest ih =>
      intro h
      cases rest with
      | nil =>
          by_cases hsa : is_py_space a = true
          · simp only [collapse_ws, if_pos hsa]
            exact ⟨fun hh => absurd hh (by decide), trivial⟩
          · simp only [collapse_ws, if_neg hsa]
            exact ⟨fun _ => Or.inl rfl, trivial⟩
      | cons b rest2 =>
          by_cases hsa : is_py_space a = true
          · by_cases hsb : is_py_space b = true
            · rw [show collapse_ws (a :: b :: rest2) = collapse_ws (b :: rest2) by
                simp [collapse_ws, hsa, hsb]]
              exact ih h.2
            · rw [show collapse_ws (a :: b :: rest2) = ' ' :: collapse_ws (b :: rest2) by
                simp [collapse_ws, hsa, hsb]]
              exact ⟨fun hh => absurd hh (by decide), ih h.2⟩
          · rw [show collapse_ws (a :: b :: rest2) = a :: collapse_ws (b :: rest2) by
              simp [collapse_ws, hsa]]
            refine ⟨fun ha => ?_, ih h.2⟩
            rcases h.1 ha with hnil | ⟨r, hr⟩ | hng
            · exact absurd hnil (List.cons_ne_nil b rest2)
            · have hb : b = '>' := by
                have := congrArg List.head? hr
                simpa using this
              subst hb
              obtain ⟨t, ht⟩ := collapse_ws_cons_not_sp '>' rest2 (by decide)
              exact Or.inr (Or.inl ⟨t, ht⟩)
            · refine Or.inr (Or.inr fun hm => ?_)
              exact mem_collapse_ws (fun c => c ≠ '>') (by decide) (b :: rest2)
                (fun c hc hcc => hng (hcc ▸ hc)) '>' hm rfl

/-- Characters of `collapse_ws` output: the space character, or an input
character that is not whitespace. -/
lemma mem_collapse_ws_strong : ∀ (l : List Char) (c : Char), c ∈ collapse_ws l →
    c = ' ' ∨ (c ∈ l ∧ is_py_space c = false) := by
  intro l
  induction l with
  | nil => intro c hc; simp [collapse_ws] at hc
  | cons a rest ih =>
      intro c hc
      cases rest with
      | nil =>
          by_cases hsa : is_py_space a = true
          · simp [collapse_ws, hsa] at hc
            exact Or.inl hc
          · simp [collapse_ws, hsa] at hc
            subst hc
            simp only [Bool.not_eq_true] at hsa
            exact Or.inr ⟨List.mem_cons_self c [], hsa⟩
      | cons b rest2 =>
          by_cases hsa : is_py_space a = true
          · by_cases hsb : is_py_space b = true
            · rw [show collapse_ws (a :: b :: rest2) = collapse_ws (b :: rest2) by
                simp [collapse_ws, hsa, hsb]] at hc
              rcases ih c hc with hc' | ⟨hm, hn⟩
              · exact Or.inl hc'
              · exact Or.inr ⟨List.mem_cons_of_mem a hm, hn⟩
            · rw [show collapse_ws (a :: b :: rest2) = ' ' :: collapse_ws (b :: rest2) by
                simp [collapse_ws, hsa, hsb]] at hc
              rcases List.mem_cons.mp hc with rfl | hc
              · exact Or.inl rfl
              · rcases ih c hc with hc' | ⟨hm, hn⟩
                · exact Or.inl hc'
                · exact Or.inr ⟨List.mem_cons_of_mem a hm, hn⟩
          · rw [show collapse_ws (a :: b :: rest2) = a :: collapse_ws (b :: rest2) by
              simp [collapse_ws, hsa]] at hc
            rcases List.mem_cons.mp hc with rfl | hc
            · simp only [Bool.not_eq_true] at hsa
              exact Or.inr ⟨List.mem_cons_self c _, hsa⟩
            · rcases ih c hc with hc' | ⟨hm, hn⟩
              · exact Or.inl hc'
              · exact Or.inr ⟨List.mem_cons_of_mem a hm, hn⟩

/-- No two adjacent whitespace characters. -/
def NoAdjWs : List Char → Prop
  | [] => True
  | [_] => True
  | c₁ :: c₂ :: rest =>
      ¬(is_py_space c₁ = true ∧ is_py_space c₂ = true) ∧ NoAdjWs (c₂ :: rest)

/-- The adjacency invariant passes to the tail. -/
lemma no_adj_ws_tail (a : Char) (l : List Char) (h : NoAdjWs (a :: l)) :
    NoAdjWs l := by
  cases l with
  | nil => trivial
  | cons b r => exact h.2

/-- `collapse_ws` output has no two adjacent whitespace characters. -/
lemma no_adj_ws_collapse : ∀ l : List Char, NoAdjWs (collapse_ws l) := by
  intro l
  induction l with
  | nil => trivial
  | cons a rest ih =>
      cases rest with
      | nil =>
          by_cases hsa : is_py_space a = true <;> simp only [collapse_ws, hsa] <;>
            trivial
      | cons b rest2 =>
          by_cases hsa : is_py_space a = true
          · by_cases hsb : is_py_space b = true
            · rw [show collapse_ws (a :: b :: rest2) = collapse_ws (b :: rest2) by
                simp [collapse_ws, hsa, hsb]]
              exact ih
            · rw [show collapse_ws (a :: b :: rest2) = ' ' :: collapse_ws (b :: rest2) by
                simp [collapse_ws, hsa, hsb]]
              obtain ⟨t, ht⟩ := collapse_ws_cons_not_sp b rest2
                (by simpa using hsb)
              rw [ht]
              exact ⟨fun hcon => hsb hcon.2, ht ▸ ih⟩
          · rw [show collapse_ws (a :: b :: rest2) = a :: collapse_ws (b :: rest2) by
              simp [collapse_ws, hsa]]
            cases hcol : collapse_ws (b :: rest2) with
            | nil => trivial
            | cons d t => exact ⟨fun hcon => hsa hcon.1, hcol ▸ ih⟩

/-- `collapse_ws` fixes lists in whitespace normal form (all whitespace is
the space character, no two adjacent). -/
lemma collapse_ws_eq_self : ∀ l : List Char,
    (∀ c ∈ l, is_py_space c = true → c = ' ') → NoAdjWs l →
    collapse_ws l = l := by
  intro l
  induction l with
  | nil => intro _ _; rfl
  | cons a rest ih =>
      intro h1 h2
      cases rest with
      | nil =>
          by_cases hsa : is_py_space a = true
          · simp only [collapse_ws, if_pos hsa]
            rw [h1 a (List.mem_cons_self a []) hsa]
          · simp only [collapse_ws, if_neg hsa]
      | cons b rest2 =>
          have hna : ¬(is_py_space a = true ∧ is_py_space b = true) := h2.1
          have hcond : (is_py_space a && is_py_space b) = false := by
            cases ha : is_py_space a <;> cases hb : is_py_space b <;> simp_all
          simp only [collapse_ws, hcond, Bool.false_eq_true, if_false]
          rw [ih (fun c hc => h1 c (List.mem_cons_of_mem a hc)) h2.2]
          by_cases hsa : is_py_space a = true
          · rw [if_pos hsa, h1 a (List.mem_cons_self a _) hsa]
          · rw [if_neg hsa]

/-- The adjacency invariant passes to `dropWhile`. -/
lemma no_adj_ws_dropWhile (p : Char → Bool) :
    ∀ l : List Char, NoAdjWs l → NoAdjWs (l.dropWhile p) := by
  intro l
  induction l with
  | nil => intro _; trivial
  | cons a rest ih =>
      intro h
      by_cases hp : p a
      · rw [List.dropWhile_cons_of_pos hp]
        exact ih (no_adj_ws_tail a rest h)
      · rw [List.dropWhile_cons_of_neg hp]
        exact h

/-- The adjacency invariant passes to a prefix. -/
lemma no_adj_ws_append_left : ∀ l₁ l₂ : List Char,
    NoAdjWs (l₁ ++ l₂) → NoAdjWs l₁ := by
  intro l₁
  induction l₁ with
  | nil => intro _ _; trivial
  | cons a r ih =>
      intro l₂ h
      cases r with
      | nil => trivial
      | cons b r2 =>
          rw [List.cons_append, List.cons_append] at h
          exact ⟨h.1, ih l₂ (by rw [List.cons_append]; exact h.2)⟩

/-- `py_strip l` is a prefix of `l.dropWhile is_py_space`. -/
lemma py_strip_prefix (l : List Char) :
    ∃ t, l.dropWhile is_py_space = py_strip l ++ t := by
  obtain ⟨s, hs⟩ :=
    List.dropWhile_suffix (l := (l.dropWhile is_py_space).reverse) is_py_space
  refine ⟨s.reverse, ?_⟩
  have h := congrArg List.reverse hs
  simpa [py_strip] using h.symm

/-- The head of a `dropWhile` output fails the predicate. -/
lemma head_dropWhile_false (p : Char → Bool) (l : List Char) (c : Char)
    (h : (l.dropWhile p).head? = some c) : p c = false := by
  have hh := List.head?_dropWhile_not p l
  rw [h] at hh
  exact hh

/-- `dropWhile` fixes a list whose head fails the predicate. -/
lemma dropWhile_eq_self_of_head (p : Char → Bool) (l : List Char)
    (h : ∀ c, l.head? = some c → p c = false) : l.dropWhile p = l := by
  cases l with
  | nil => rfl
  | cons a rest => exact List.dropWhile_cons_of_neg (by simp [h a rfl])

/-- `py_strip` is idempotent. -/
lemma py_strip_idem (l : List Char) : py_strip (py_strip l) = py_strip l := by
  have h1 : (py_strip l).dropWhile is_py_space = py_strip l := by
    apply dropWhile_eq_self_of_head
    intro c hc
    unfold py_strip at hc
    rw [List.head?_reverse] at hc
    obtain ⟨s, hs⟩ :=
      List.dropWhile_suffix (l := (l.dropWhile is_py_space).reverse) is_py_space
    have h2 : (l.dropWhile is_py_space).reverse.getLast? = some c := by
      rw [← hs, List.getLast?_append, hc]
      rfl
    rw [List.getLast?_reverse] at h2
    exact head_dropWhile_false is_py_space l c h2
  show (((py_strip l).dropWhile is_py_space).reverse.dropWhile
      is_py_space).reverse = py_strip l
  rw [h1]
  unfold py_strip
  rw [List.reverse_reverse]
  have h3 : ((l.dropWhile is_py_space).reverse.dropWhile is_py_space).dropWhile
      is_py_space = (l.dropWhile is_py_space).reverse.dropWhile is_py_space := by
    apply dropWhile_eq_self_of_head
    intro c hc
    exact head_dropWhile_false is_py_space _ c hc
  rw [h3]

/-- `is_arabic` is false exactly when no character is in an Arabic range. -/
lemma is_arabic_eq_false_iff (s : String) :
    is_arabic s = false ↔ ∀ c ∈ s.data, is_arabic_char c = false := by
  unfold is_arabic
  rw [List.any_eq_false]
  simp [Bool.not_eq_true]

/-- The characters of `clean_text` output are the input's characters, the
space, or the two brackets; in particular no Arabic character appears that
was not already present. -/
lemma clean_text_no_arabic (x : String)
    (hx : ∀ c ∈ x.data, is_arabic_char c = false) :
    ∀ c ∈ (clean_text x).data, is_arabic_char c = false := by
  have hz : ∀ c ∈ strip_tags x.data, is_arabic_char c = false :=
    mem_strip_tags_aux _ (by decide) (by decide) x.data none hx (by simp)
  have hw : ∀ c ∈ collapse_ws (strip_tags x.data), is_arabic_char c = false :=
    mem_collapse_ws _ (by decide) _ hz
  have hv : ∀ c ∈ py_strip (collapse_ws (strip_tags x.data)),
      is_arabic_char c = false := fun c hc => hw c (mem_py_strip _ c hc)
  intro c hc
  have : (clean_text x).data =
      py_strip (collapse_ws (strip_tags x.data)) := by
    show (String.mk (normalize_arabic _)).data = _
    rw [normalize_arabic_eq_self _ hv]
  rw [this] at hc
  exact hv c hc

/-- The cleaning pass is idempotent on text without Arabic characters. -/
lemma clean_text_idem (x : String)
    (hx : ∀ c ∈ x.data, is_arabic_char c = false) :
    clean_text (clean_text x) = clean_text x := by
  have hz : ∀ c ∈ strip_tags x.data, is_arabic_char c = false :=
    mem_strip_tags_aux _ (by decide) (by decide) x.data none hx (by simp)
  have hw : ∀ c ∈ collapse_ws (strip_tags x.data), is_arabic_char c = false :=
    mem_collapse_ws _ (by decide) _ hz
  have hv : ∀ c ∈ py_strip (collapse_ws (strip_tags x.data)),
      is_arabic_char c = false := fun c hc => hw c (mem_py_strip _ c hc)
  have hnorm : normalize_arabic (py_strip (collapse_ws (strip_tags x.data))) =
      py_strip (collapse_ws (strip_tags x.data)) := normalize_arabic_eq_self _ hv
  have hcx : clean_text x =
      String.mk (py_strip (collapse_ws (strip_tags x.data))) := by
    show String.mk (normalize_arabic _) = _
    rw [hnorm]
  rw [hcx]
  show String.mk (normalize_arabic (py_strip (collapse_ws (strip_tags
    (py_strip (collapse_ws (strip_tags x.data))))))) = _
  have hTagv : TagInv (py_strip (collapse_ws (strip_tags x.data))) := by
    obtain ⟨t, ht⟩ := py_strip_prefix (collapse_ws (strip_tags x.data))
    refine tag_inv_append_left _ t (ht ▸ ?_)
    exact tag_inv_dropWhile is_py_space _
      (tag_inv_collapse_ws _ (tag_inv_strip_tags_aux x.data).1)
  rw [strip_tags_eq_self _ hTagv]
  have hosw : ∀ c ∈ py_strip (collapse_ws (strip_tags x.data)),
      is_py_space c = true → c = ' ' := by
    intro c hc hsp
    rcases mem_collapse_ws_strong _ c (mem_py_strip _ c hc) with h | ⟨_, hn⟩
    · exact h
    · rw [hsp] at hn
      exact absurd hn (by decide)
  have hnav : NoAdjWs (py_strip (collapse_ws (strip_tags x.data))) := by
    obtain ⟨t, ht⟩ := py_strip_prefix (collapse_ws (strip_tags x.data))
    refine no_adj_ws_append_left _ t (ht ▸ ?_)
    exact no_adj_ws_dropWhile is_py_space _ (no_adj_ws_collapse _)
  rw [collapse_ws_eq_self _ hosw hnav, py_strip_idem, hnorm]

/-- C9: text shaping is idempotent on pure-Latin input.  The external
reshaper and bidi steps are oracles assumed to leave non-Arabic strings
unchanged (the spec: steps 4–5 are no-ops for pure Latin text); under that
assumption `process_text` — and `format_subtitle_text` without a wrap
width — satisfies `format(format(x)) = format(x)` for every `x` with no
Arabic characters, because the cleaning pass is idempotent and the
normalization step does not touch such text. -/
theorem C9_latin_shaping_idempotent (reshape get_display : String → Option String)
    (hr : ∀ s, is_arabic s = false → reshape s = some s)
    (hg : ∀ s, is_arabic s = false → get_display s = some s)
    (x : String) (hx : is_arabic x = false) :
    process_text_with reshape get_display
        (process_text_with reshape get_display x) =
      process_text_with reshape get_display x ∧
    format_subtitle_text_with reshape get_display
        (format_subtitle_text_with reshape get_display x none) none =
      format_subtitle_text_with reshape get_display x none := by
  have hx' : ∀ c ∈ x.data, is_arabic_char c = false :=
    (is_arabic_eq_false_iff x).mp hx
  have h1 : is_arabic (clean_text x) = false :=
    (is_arabic_eq_false_iff _).mpr (clean_text_no_arabic x hx')
  have hpt : process_text_with reshape get_display x = clean_text x := by
    simp [process_text_with, hr _ h1, hg _ h1]
  have h2 : is_arabic (clean_text (clean_text x)) = false :=
    (is_arabic_eq_false_iff _).mpr
      (clean_text_no_arabic _ ((is_arabic_eq_false_iff _).mp h1))
  have hmain : process_text_with reshape get_display
      (process_text_with reshape get_display x) =
      process_text_with reshape get_display x := by
    rw [hpt]
    simp [process_text_with, clean_text_idem x hx', hr _ h1, hg _ h1,
      hr _ h2, hg _ h2]
  exact ⟨hmain, hmain⟩

/-- C9 witness: the idempotence theorem applied with identity oracles to a
concrete Latin string containing markup and irregular whitespace. -/
theorem C9_witness :
    process_text_with (fun s => some s) (fun s => some s)
        (process_text_with (fun s => some s) (fun s => some s)
          "Latin  <i>text</i> here") =
      process_text_with (fun s => some s) (fun s => some s)
        "Latin  <i>text</i> here" :=
  (C9_latin_shaping_idempotent (fun s => some s) (fun s => some s)
    (fun _ _ => rfl) (fun _ _ => rfl) "Latin  <i>text</i> here" (by decide)).1

end Cop
